import Mathlib

/-!
Verification of the dirty-rectangle engine in `src/game/gmdraw.c`.

The file shallowly embeds the C module: rectangles become a structure of
four integers, the iterative quicksort and the helper scans become fueled
or well-founded recursive functions over `List ℤ`, the cell grid of
`mk_disjoint` becomes a total function `ℤ → ℕ` (indices the C code would
read or write outside the allocation are modelled as holding `0`), and the
Python-level `fastdraw` pipeline becomes explicit state passing over a
`Drawable` record, with draw invocations and `was_visible` writes recorded
in traces.
-/

namespace Gmdraw

/-- Axis-aligned integer rectangle, mirroring `GAME_Rect` (`int x, y, w, h`). -/
structure Rect where
  x : ℤ
  y : ℤ
  w : ℤ
  h : ℤ
deriving DecidableEq, Repr

/-- Modelled from the spec: pygame's `Rect.clip` is an external collaborator
("Rectangle ... supports intersection (clip)", "intersecting two rectangles
yields a new rectangle (possibly degenerate)").  The intersection of the two
rectangles when it has positive extent on both axes, otherwise a degenerate
rectangle positioned at the first rectangle's corner. -/
def Rect.clip (a b : Rect) : Rect :=
  let x1 := max a.x b.x
  let y1 := max a.y b.y
  let x2 := min (a.x + a.w) (b.x + b.w)
  let y2 := min (a.y + a.h) (b.y + b.h)
  if x1 < x2 ∧ y1 < y2 then ⟨x1, y1, x2 - x1, y2 - y1⟩ else ⟨a.x, a.y, 0, 0⟩

/-- Two rectangles overlap with positive area. -/
def PosOverlap (a b : Rect) : Prop :=
  max a.x b.x < min (a.x + a.w) (b.x + b.w) ∧
  max a.y b.y < min (a.y + a.h) (b.y + b.h)

instance : DecidablePred fun p : Rect × Rect => PosOverlap p.1 p.2 := by
  intro p; unfold PosOverlap; infer_instance

instance (a b : Rect) : Decidable (PosOverlap a b) := by
  unfold PosOverlap; infer_instance

/-- An integer point is covered by some rectangle of the list
(half-open on both axes). -/
def coveredBy (rs : List Rect) (p : ℤ × ℤ) : Bool :=
  rs.any fun r =>
    decide (r.x ≤ p.1) && decide (p.1 < r.x + r.w) &&
    decide (r.y ≤ p.2) && decide (p.2 < r.y + r.h)

/-- Array read `arr[i]`; every use in the embedded code is in bounds. -/
def geti (l : List ℤ) (i : ℕ) : ℤ := l.getD i 0

/-- `set_add` of gmdraw.c: append `x` unless it already occurs. -/
def set_add (arr : List ℤ) (x : ℤ) : List ℤ :=
  if x ∈ arr then arr else arr ++ [x]

/-- Recursion core of `find`, structurally recursive on a fuel argument so
that it evaluates by kernel reduction; `find` supplies exactly enough fuel
for the loop `for (; i < n; i++)`. -/
def findF (arr : List ℤ) (x : ℤ) : ℕ → ℤ → ℤ
  | 0, _ => -1
  | fuel + 1, i =>
    if i < (arr.length : ℤ) then
      if geti arr i.toNat = x then i else findF arr x fuel (i + 1)
    else -1

/-- `find` of gmdraw.c: first index `≥ i` holding `x`, `-1` when absent. -/
def find (arr : List ℤ) (x : ℤ) (i : ℤ) : ℤ :=
  findF arr x (((arr.length : ℤ) - i).toNat + 1) i

/-- The inner `while (arr[R] >= piv && L < R) R--;` of `quicksort`,
structurally recursive on `R`. -/
def scanDown (arr : List ℤ) (piv : ℤ) (L : ℕ) : ℕ → ℕ
  | 0 => 0
  | R + 1 =>
    if L < R + 1 ∧ piv ≤ geti arr (R + 1) then scanDown arr piv L R else R + 1

/-- Recursion core of `scanUp` (`while (arr[L] <= piv && L < R) L++;`);
the guard `L < R` bounds the iteration count by `R - L`, which `scanUp`
supplies as fuel. -/
def scanUpF (arr : List ℤ) (piv : ℤ) (R : ℕ) : ℕ → ℕ → ℕ
  | 0, L => L
  | fuel + 1, L =>
    if L < R ∧ geti arr L ≤ piv then scanUpF arr piv R fuel (L + 1) else L

/-- The inner `while (arr[L] <= piv && L < R) L++;` of `quicksort`. -/
def scanUp (arr : List ℤ) (piv : ℤ) (L R : ℕ) : ℕ :=
  scanUpF arr piv R (R - L) L

/-- Recursion core of the partition phase of `quicksort`: the body of
`while (L < R) { ... }` followed by the final `arr[L] = piv;`.  Returns the
updated array and the final pivot position.  Each iteration shrinks `R - L`,
so `partLoop` supplies `R - L + 1` as fuel and the fuel-exhausted branch is
never reached. -/
def partLoopF : ℕ → List ℤ → ℤ → ℕ → ℕ → List ℤ × ℕ
  | 0, arr, piv, L, _ => (arr.set L piv, L)
  | fuel + 1, arr, piv, L, R =>
    if L < R then
      let R1 := scanDown arr piv L R
      if L < R1 then
        let arr1 := arr.set L (geti arr R1)
        let L1 := scanUp arr1 piv (L + 1) R1
        if L1 < R1 then partLoopF fuel (arr1.set R1 (geti arr1 L1)) piv L1 (R1 - 1)
        else partLoopF fuel arr1 piv L1 R1
      else partLoopF fuel arr piv L R1
    else (arr.set L piv, L)

/-- The partition phase of `quicksort` with its exact fuel. -/
def partLoop (arr : List ℤ) (piv : ℤ) (L R : ℕ) : List ℤ × ℕ :=
  partLoopF (R - L + 1) arr piv L R

/-- Total outer-loop work bound for the segment stack of `quicksort`. -/
def segMeasure (segs : List (ℕ × ℕ)) : ℕ :=
  (segs.map fun s => 2 * (s.2 - s.1) + 1).sum

/-- The iterative outer loop of `quicksort`: the stack of `beg`/`end`
segment pairs is modelled as a list whose head is the top (`i`-th) entry.
After a partition the right segment is pushed on top and swapped below the
left one when it is the longer of the two, exactly as in the C code. -/
def qsortLoop : ℕ → List ℤ → List (ℕ × ℕ) → List ℤ
  | 0, arr, _ => arr
  | _ + 1, arr, [] => arr
  | fuel + 1, arr, (b, e) :: rest =>
    if b + 1 < e then
      let piv := geti arr b
      let pr := partLoop arr piv b (e - 1)
      let lseg : ℕ × ℕ := (b, pr.2)
      let rseg : ℕ × ℕ := (pr.2 + 1, e)
      if rseg.2 - rseg.1 > lseg.2 - lseg.1 then
        qsortLoop fuel pr.1 (lseg :: rseg :: rest)
      else
        qsortLoop fuel pr.1 (rseg :: lseg :: rest)
    else qsortLoop fuel arr rest

/-- `quicksort` of gmdraw.c on the whole array.  The fuel strictly exceeds
the measure `2 * length + 1` of the initial stack, which decreases at every
outer iteration, so it is never exhausted. -/
def quicksort (arr : List ℤ) : List ℤ :=
  qsortLoop (2 * arr.length + 2) arr [(0, arr.length)]

/-- Edge collection for one rectangle (lines 82–85 of gmdraw.c):
`set_add` the left/right x edges and the top/bottom y edges. -/
def edgeStep (es : List ℤ × List ℤ) (r : Rect) : List ℤ × List ℤ :=
  (set_add (set_add es.1 r.x) (r.x + r.w),
   set_add (set_add es.2 r.y) (r.y + r.h))

/-- Edge collection over all input rectangles (`add` then `rm`). -/
def collectEdges (rs : List Rect) : List ℤ × List ℤ :=
  rs.foldl edgeStep ([], [])

/-- The sorted deduplicated x- and y-edge arrays of `mk_disjoint`. -/
def mkDisjointEdges (add rm : List Rect) : List ℤ × List ℤ :=
  let es := collectEdges (add ++ rm)
  (quicksort es.1, quicksort es.2)

/-- Grid cell index used by both the marking and the emission pass:
`grid[(n_edges[1] - 1) * k + l]`.  Note the stride is `n_edges[1] - 1`
(the number of rows) although a row holds `n_edges[0] - 1` cells. -/
def gridIdx (ny : ℕ) (k l : ℤ) : ℤ := ((ny : ℤ) - 1) * k + l

/-- Grid allocation `i = (n_edges[0] - 1) * (n_edges[1] - 1)` (line 93),
as the signed product computed by the C code. -/
def gridLen (nx ny : ℕ) : ℤ := ((nx : ℤ) - 1) * ((ny : ℤ) - 1)

/-- The freshly initialised grid: cells `0 ≤ j < gridLen` hold 1 (line 95);
memory outside the allocation is modelled as holding 0. -/
def initGrid (nx ny : ℕ) : ℤ → ℕ :=
  fun j => if 0 ≤ j ∧ j < gridLen nx ny then 1 else 0

/-- One grid write: `grid[idx] |= 2` for an `add` rectangle,
`grid[idx] ^= 1` for a `rm` rectangle. -/
def updG (g : ℤ → ℕ) (idx : ℤ) (isAdd : Bool) : ℤ → ℕ :=
  fun j => if j = idx then (if isAdd then g idx ||| 2 else g idx ^^^ 1) else g j

/-- Integer loop range `for (k = a; k < b; k++)`. -/
def intRange (a b : ℤ) : List ℤ :=
  (List.range (b - a).toNat).map fun n => a + (n : ℤ)

/-- Marking one rectangle on the grid (lines 100–113): skipped when
degenerate, otherwise its edge-index span is located with `find` and every
cell in the span is updated. -/
def markRect (g : ℤ → ℕ) (ex ey : List ℤ) (isAdd : Bool) (r : Rect) : ℤ → ℕ :=
  if 0 < r.w ∧ 0 < r.h then
    let row0 := find ey r.y 0
    let row1 := find ey (r.y + r.h) row0
    let col0 := find ex r.x 0
    let col1 := find ex (r.x + r.w) col0
    (intRange row0 row1).foldl
      (fun g2 k =>
        (intRange col0 col1).foldl
          (fun g3 l => updG g3 (gridIdx ey.length k l) isAdd) g2)
      g
  else g

/-- The full marking pass: all `add` rectangles (OR 2) then all `rm`
rectangles (XOR 1), in input order. -/
def markAll (ex ey : List ℤ) (add rm : List Rect) : ℤ → ℕ :=
  rm.foldl (fun g r => markRect g ex ey false r)
    (add.foldl (fun g r => markRect g ex ey true r) (initGrid ex.length ey.length))

/-- The rectangle emitted for grid cell `(i, j)` (lines 122–126). -/
def cellAt (ex ey : List ℤ) (i j : ℕ) : Rect :=
  ⟨geti ex j, geti ey i, geti ex (j + 1) - geti ex j, geti ey (i + 1) - geti ey i⟩

/-- The emission pass (lines 119–131): scan rows then columns and emit the
cell rectangle whenever the cell value is 3 (add and not rm). -/
def emitGrid (ex ey : List ℤ) (g : ℤ → ℕ) : List Rect :=
  (List.range (ey.length - 1)).flatMap fun (i : ℕ) =>
    (List.range (ex.length - 1)).filterMap fun (j : ℕ) =>
      if g (gridIdx ey.length (i : ℤ) (j : ℤ)) = 3 then some (cellAt ex ey i j)
      else none

/-- `mk_disjoint` of gmdraw.c: collect and sort edges, mark the cell grid,
emit the cells valued 3. -/
def mk_disjoint (add rm : List Rect) : List Rect :=
  let exy := mkDisjointEdges add rm
  emitGrid exy.1 exy.2 (markAll exy.1 exy.2 add rm)

/-- Instrumentation: the grid indices written for one rectangle by the
marking pass, in write order. -/
def markRectIdx (ex ey : List ℤ) (r : Rect) : List ℤ :=
  if 0 < r.w ∧ 0 < r.h then
    let row0 := find ey r.y 0
    let row1 := find ey (r.y + r.h) row0
    let col0 := find ex r.x 0
    let col1 := find ex (r.x + r.w) col0
    (intRange row0 row1).flatMap fun k =>
      (intRange col0 col1).map fun l => gridIdx ey.length k l
  else []

/-- Instrumentation: all grid indices written by the marking pass of
`mk_disjoint` on the given input. -/
def mkDisjointMarkIdx (add rm : List Rect) : List ℤ :=
  let exy := mkDisjointEdges add rm
  (add ++ rm).flatMap (markRectIdx exy.1 exy.2)

/-- Instrumentation: the grid allocation size of `mk_disjoint` on the
given input. -/
def mkDisjointGridLen (add rm : List Rect) : ℤ :=
  let exy := mkDisjointEdges add rm
  gridLen exy.1.length exy.2.length

/-- Sortedness bookkeeping for the outer quicksort loop: every pair of
positions not lying together inside one pending segment is already in
order. -/
def OutSorted (arr : List ℤ) (segs : List (ℕ × ℕ)) : Prop :=
  ∀ i j, i < j → j < arr.length →
    (∀ s ∈ segs, ¬(s.1 ≤ i ∧ j < s.2)) → geti arr i ≤ geti arr j

/-- Every pending segment is well formed and within the array. -/
def SegsOK (arr : List ℤ) (segs : List (ℕ × ℕ)) : Prop :=
  ∀ s ∈ segs, s.1 ≤ s.2 ∧ s.2 ≤ arr.length

/-- Pending segments are pairwise disjoint half-open intervals. -/
def SegsDisj (segs : List (ℕ × ℕ)) : Prop :=
  segs.Pairwise fun s t => s.2 ≤ t.1 ∨ t.2 ≤ s.1

/-- A drawable object as consumed by `fastdraw`: the attributes it reads
and writes.  The C attribute `_rect` is the field `rect`; the attribute
`opaque_in` is the field `opq_in` (that attribute name contains a Lean
keyword).  `draw` is a side effect and is recorded in a trace instead. -/
structure Drawable where
  visible : Bool
  was_visible : Bool
  rect : Rect
  last_rect : Rect
  dirty : List Rect
  opq_in : Rect → Bool

/-- Dirty collection for one drawable (lines 184–203): for `k = 0`
(`was_visible`/`last_rect`) then `k = 1` (`visible`/`_rect`), when the flag
is true append the clip of every dirty rectangle against the bound, with no
area test. -/
def collectDirtyG (d : List Rect) (g : Drawable) : List Rect :=
  let d1 :=
    if g.was_visible then
      g.dirty.foldl (fun acc r => acc ++ [r.clip g.last_rect]) d
    else d
  if g.visible then
    g.dirty.foldl (fun acc r => acc ++ [r.clip g.rect]) d1
  else d1

/-- Collection over one layer, threading the global dirty list, producing
the drawables with `was_visible := visible` written (line 205) and the
trace of those writes, one per drawable. -/
def collectLayer (i : ℕ) (d : List Rect) (tr : List ((ℕ × ℕ) × Bool)) :
    ℕ → List Drawable → List Rect × List Drawable × List ((ℕ × ℕ) × Bool)
  | _, [] => (d, [], tr)
  | j, g :: gs =>
    let d1 := collectDirtyG d g
    let g1 : Drawable := { g with was_visible := g.visible }
    let rec2 := collectLayer i d1 (tr ++ [((i, j), g.visible)]) (j + 1) gs
    (rec2.1, g1 :: rec2.2.1, rec2.2.2)

/-- The full collection pass (lines 179–208) over all layers. -/
def collectAll (d : List Rect) (tr : List ((ℕ × ℕ) × Bool)) :
    ℕ → List (List Drawable) →
      List Rect × List (List Drawable) × List ((ℕ × ℕ) × Bool)
  | _, [] => (d, [], tr)
  | i, gs :: ls =>
    let r1 := collectLayer i d tr 0 gs
    let r2 := collectAll r1.1 r1.2.2 (i + 1) ls
    (r2.1, r1.2.1 :: r2.2.1, r2.2.2)

/-- The chained clip-and-opacity test of the occlusion pass
(lines 230–250): clip `r` successively against each drawable's `_rect`,
asking `opaque_in` on the shrinking rectangle, stopping at the first
failure. -/
def chainClip (r : Rect) : List Drawable → Rect × Bool
  | [] => (r, true)
  | g :: gs =>
    let r1 := r.clip g.rect
    if 0 < r1.w ∧ 0 < r1.h ∧ g.opq_in r1 = true then chainClip r1 gs
    else (r1, false)

/-- One layer's opaque contribution `l_dirty_opaque` (lines 228–253):
the fully clipped rectangle of every globally dirty rectangle whose whole
chain passed.  For a layer with no drawables the chain passes vacuously and
the original rectangle is appended. -/
def layerOpq (gs : List Drawable) (dirty : List Rect) : List Rect :=
  dirty.foldl
    (fun acc r =>
      let c := chainClip r gs
      if c.2 then acc ++ [c.1] else acc)
    []

/-- The occlusion pass (lines 224–262): per layer, top first,
`dirty_by_layer[i] = mk_disjoint(dirty, dirty_opaque)` is computed before
this layer's own opaque contribution is concatenated onto `dirty_opaque`.
Returns the per-layer lists and the final opaque set. -/
def occl (dirty : List Rect) : List (List Drawable) → List Rect →
    List (List Rect) × List Rect
  | [], dop => ([], dop)
  | gs :: ls, dop =>
    let dbl := mk_disjoint dirty dop
    let ldo := layerOpq gs dirty
    let rest := occl dirty ls (dop ++ ldo)
    (dbl :: rest.1, rest.2)

/-- The per-drawable draw list (lines 274–283): each rectangle of the
layer's dirty list clipped against the drawable's `_rect`, kept only when
positive-area. -/
def drawInG (g : Drawable) (rs : List Rect) : List Rect :=
  rs.foldl
    (fun acc r =>
      let c := g.rect.clip r
      if 0 < c.w ∧ 0 < c.h then acc ++ [c] else acc)
    []

/-- One layer of the redraw pass (lines 271–292): for each drawable, call
`draw` when its draw list is non-empty (recorded in the trace) and reset
its `dirty` list to empty. -/
def drawLayer (i : ℕ) (rs : List Rect) :
    ℕ → List Drawable → List Drawable × List (ℕ × ℕ × List Rect)
  | _, [] => ([], [])
  | j, g :: gs =>
    let din := drawInG g rs
    let calls := if din.isEmpty then [] else [(i, j, din)]
    let g1 : Drawable := { g with dirty := [] }
    let rest := drawLayer i rs (j + 1) gs
    (g1 :: rest.1, calls ++ rest.2)

/-- The redraw pass over all layers.  The C loop runs `i` from
`n_layers - 1` down to `0`; this recursion yields each layer's updated
drawables in layer order together with its calls, and `fastdraw` reverses
the per-layer call lists to obtain the bottom-to-top call order. -/
def drawAll (dbls : List (List Rect)) :
    ℕ → List (List Drawable) →
      List (List Drawable) × List (List (ℕ × ℕ × List Rect))
  | _, [] => ([], [])
  | i, gs :: ls =>
    let this1 := drawLayer i (dbls.getD i []) 0 gs
    let rest := drawAll dbls (i + 1) ls
    (this1.1 :: rest.1, this1.2 :: rest.2)

/-- Result of one `fastdraw` invocation: `result = none` models the
`Py_False` no-work sentinel, `result = some rs` the returned rectangle
list; `layers` is the final state of every drawable; `drawCalls` records
each `draw` invocation as (layer, index in layer, draw list) in call
order; `wasVisWrites` records every write of `was_visible` as
((layer, index), written value) in write order. -/
structure FDResult where
  result : Option (List Rect)
  layers : List (List Drawable)
  dirtyByLayer : List (List Rect)
  drawCalls : List (ℕ × ℕ × List Rect)
  wasVisWrites : List ((ℕ × ℕ) × Bool)

/-- `fastdraw` of gmdraw.c: dirty collection, empty-dirty fast path
returning the sentinel, occlusion pass, redraw pass, and the concatenated
per-layer dirty lists as result. -/
def fastdraw (layers : List (List Drawable)) (dirty0 : List Rect) : FDResult :=
  let col := collectAll dirty0 [] 0 layers
  let dirty := col.1
  let layers1 := col.2.1
  let wr := col.2.2
  if dirty.isEmpty then
    { result := none, layers := layers1, dirtyByLayer := [],
      drawCalls := [], wasVisWrites := wr }
  else
    let oc := occl dirty layers1 []
    let dbls := oc.1
    let dr := drawAll dbls 0 layers1
    { result := some dbls.flatten, layers := dr.1, dirtyByLayer := dbls,
      drawCalls := dr.2.reverse.flatten, wasVisWrites := wr }

/-- Closed form of the rectangles one drawable contributes to the global
dirty list: its dirty rectangles clipped against `last_rect` when
`was_visible`, then against `_rect` when `visible`, with no area filter. -/
def collectG (g : Drawable) : List Rect :=
  (if g.was_visible then g.dirty.map fun r => r.clip g.last_rect else []) ++
    (if g.visible then g.dirty.map fun r => r.clip g.rect else [])

/-- The expected `was_visible` write trace of one layer starting at
drawable index `j`. -/
def wvLayerFrom (i : ℕ) : ℕ → List Drawable → List ((ℕ × ℕ) × Bool)
  | _, [] => []
  | j, g :: gs => ((i, j), g.visible) :: wvLayerFrom i (j + 1) gs

/-- The expected `was_visible` write trace of all layers starting at layer
index `i`: one write per drawable, in iteration order, holding the
drawable's `visible` value. -/
def wvWritesFrom : ℕ → List (List Drawable) → List ((ℕ × ℕ) × Bool)
  | _, [] => []
  | i, gs :: ls => wvLayerFrom i 0 gs ++ wvWritesFrom (i + 1) ls

/-- Concrete drawable used to exhibit the empty-layer occlusion bug: both
visibility flags set, bounds equal to its one dirty rectangle, opaque
nowhere. -/
def cexEmptyLayerG : Drawable :=
  { visible := true, was_visible := true, rect := ⟨0, 0, 1, 1⟩,
    last_rect := ⟨0, 0, 1, 1⟩, dirty := [⟨0, 0, 1, 1⟩],
    opq_in := fun _ => false }

/-- Concrete drawable whose dirty rectangle misses its bound, so the clip
appended during collection has zero area. -/
def cexZeroAreaG : Drawable :=
  { visible := true, was_visible := false, rect := ⟨0, 0, 1, 1⟩,
    last_rect := ⟨0, 0, 1, 1⟩, dirty := [⟨5, 5, 1, 1⟩],
    opq_in := fun _ => false }

/-- Concrete drawable with no dirty rectangles, for the empty-dirty fast
path. -/
def witNoDirtyG : Drawable :=
  { visible := false, was_visible := false, rect := ⟨0, 0, 1, 1⟩,
    last_rect := ⟨0, 0, 1, 1⟩, dirty := [], opq_in := fun _ => true }

theorem scanDown_le (arr : List ℤ) (piv : ℤ) (L R : ℕ) :
    scanDown arr piv L R ≤ R := by
  induction R with
  | zero => simp [scanDown]
  | succ R ih =>
    rw [scanDown]
    split
    · exact le_trans ih (by omega)
    · exact le_rfl

theorem scanDown_ge (arr : List ℤ) (piv : ℤ) (L R : ℕ) (h : L ≤ R) :
    L ≤ scanDown arr piv L R := by
  induction R with
  | zero => simpa [scanDown] using h
  | succ R ih =>
    rw [scanDown]
    split
    · next hc => exact ih (by omega)
    · exact h

theorem scanDown_above (arr : List ℤ) (piv : ℤ) (L R : ℕ) :
    ∀ i, scanDown arr piv L R < i → i ≤ R → piv ≤ geti arr i := by
  induction R with
  | zero => intro i h1 h2; rw [scanDown] at h1; omega
  | succ R ih =>
    intro i h1 h2
    rw [scanDown] at h1
    split at h1
    · next hc =>
      rcases Nat.lt_or_ge R i with hi | hi
      · have : i = R + 1 := by omega
        subst this; exact hc.2
      · exact ih i h1 hi
    · omega

theorem scanDown_stop (arr : List ℤ) (piv : ℤ) (L R : ℕ)
    (h : L < scanDown arr piv L R) :
    geti arr (scanDown arr piv L R) < piv := by
  induction R with
  | zero => rw [scanDown] at h ⊢; omega
  | succ R ih =>
    rw [scanDown] at h ⊢
    split at h
    · next hc => rw [if_pos hc]; exact ih h
    · next hc =>
      rw [if_neg hc]
      push_neg at hc
      exact hc (by omega)

theorem scanUpF_ge (arr : List ℤ) (piv : ℤ) (R : ℕ) :
    ∀ fuel L, L ≤ scanUpF arr piv R fuel L := by
  intro fuel
  induction fuel with
  | zero => intro L; simp [scanUpF]
  | succ n ih =>
    intro L
    rw [scanUpF]
    split
    · exact le_trans (by omega) (ih (L + 1))
    · exact le_rfl

theorem scanUpF_le (arr : List ℤ) (piv : ℤ) (R : ℕ) :
    ∀ fuel L, L ≤ R → scanUpF arr piv R fuel L ≤ R := by
  intro fuel
  induction fuel with
  | zero => intro L h; simpa [scanUpF] using h
  | succ n ih =>
    intro L h
    rw [scanUpF]
    split
    · next hc => exact ih (L + 1) (by omega)
    · exact h

theorem scanUpF_below (arr : List ℤ) (piv : ℤ) (R : ℕ) :
    ∀ fuel L i, L ≤ i → i < scanUpF arr piv R fuel L → geti arr i ≤ piv := by
  intro fuel
  induction fuel with
  | zero => intro L i h1 h2; rw [scanUpF] at h2; omega
  | succ n ih =>
    intro L i h1 h2
    rw [scanUpF] at h2
    split at h2
    · next hc =>
      rcases Nat.lt_or_ge i (L + 1) with hi | hi
      · have : i = L := by omega
        subst this; exact hc.2
      · exact ih (L + 1) i hi h2
    · omega

theorem scanUpF_stop (arr : List ℤ) (piv : ℤ) (R : ℕ) :
    ∀ fuel L, R - L ≤ fuel → scanUpF arr piv R fuel L < R →
      piv < geti arr (scanUpF arr piv R fuel L) := by
  intro fuel
  induction fuel with
  | zero =>
    intro L hf h
    rw [scanUpF] at h ⊢
    omega
  | succ n ih =>
    intro L hf h
    rw [scanUpF] at h ⊢
    split at h
    · next hc => rw [if_pos hc]; exact ih (L + 1) (by omega) h
    · next hc =>
      rw [if_neg hc]
      push_neg at hc
      exact hc h

theorem scanUp_ge (arr : List ℤ) (piv : ℤ) (L R : ℕ) :
    L ≤ scanUp arr piv L R :=
  scanUpF_ge arr piv R (R - L) L

theorem scanUp_le (arr : List ℤ) (piv : ℤ) (L R : ℕ) (h : L ≤ R) :
    scanUp arr piv L R ≤ R :=
  scanUpF_le arr piv R (R - L) L h

theorem scanUp_below (arr : List ℤ) (piv : ℤ) (L R : ℕ) :
    ∀ i, L ≤ i → i < scanUp arr piv L R → geti arr i ≤ piv :=
  fun i h1 h2 => scanUpF_below arr piv R (R - L) L i h1 h2

theorem scanUp_stop (arr : List ℤ) (piv : ℤ) (L R : ℕ)
    (h : scanUp arr piv L R < R) :
    piv < geti arr (scanUp arr piv L R) :=
  scanUpF_stop arr piv R (R - L) L le_rfl h


theorem geti_set_self (l : List ℤ) (i : ℕ) (a : ℤ) (h : i < l.length) :
    geti (l.set i a) i = a := by
  simp [geti, List.getD_eq_getElem?_getD, List.getElem?_set_self',
    List.getElem?_eq_getElem h]

theorem geti_set_ne (l : List ℤ) (i j : ℕ) (a : ℤ) (h : i ≠ j) :
    geti (l.set i a) j = geti l j := by
  simp [geti, List.getD_eq_getElem?_getD, List.getElem?_set_ne h]

theorem count_set (l : List ℤ) : ∀ (i : ℕ) (a v : ℤ), i < l.length →
    (l.set i a).count v + (if geti l i == v then 1 else 0)
      = l.count v + (if a == v then 1 else 0) := by
  induction l with
  | nil => intro i a v h; simp at h
  | cons x xs ih =>
    intro i a v h
    cases i with
    | zero =>
      simp only [List.set_cons_zero, List.count_cons, geti, List.getD_cons_zero]
      omega
    | succ i =>
      simp only [List.set_cons_succ, List.count_cons, geti, List.getD_cons_succ]
      have := ih i a v (by simpa using h)
      simp only [geti] at this
      omega

theorem set_rot2_perm (l : List ℤ) (i j : ℕ) (x : ℤ)
    (hij : i ≠ j) (hi : i < l.length) (hj : j < l.length) :
    ((l.set i (geti l j)).set j x).Perm (l.set i x) := by
  apply List.perm_iff_count.mpr
  intro v
  have h1 := count_set (l.set i (geti l j)) j x v (by simpa using hj)
  have h2 := count_set l i (geti l j) v hi
  have h3 := count_set l i x v hi
  rw [geti_set_ne l i j _ hij] at h1
  omega

theorem set_rot3_perm (l : List ℤ) (i j k : ℕ) (x : ℤ)
    (hij : i ≠ j) (hik : i ≠ k) (hjk : j ≠ k)
    (hi : i < l.length) (hj : j < l.length) (hk : k < l.length) :
    (((l.set i (geti l j)).set j (geti l k)).set k x).Perm (l.set i x) := by
  apply List.perm_iff_count.mpr
  intro v
  have h1 := count_set ((l.set i (geti l j)).set j (geti l k)) k x v (by simpa using hk)
  have h2 := count_set (l.set i (geti l j)) j (geti l k) v (by simpa using hj)
  have h3 := count_set l i (geti l j) v hi
  have h4 := count_set l i x v hi
  have e1 : geti ((l.set i (geti l j)).set j (geti l k)) k = geti l k := by
    rw [geti_set_ne _ j k _ hjk, geti_set_ne _ i k _ hik]
  rw [e1] at h1
  rw [geti_set_ne l i j _ hij] at h2
  omega

/-- Full partition specification: with adequate fuel, `partLoopF` places
the pivot at the returned position, leaves everything outside `[L, R]`
untouched, bounds the values on each side of the pivot, and permutes the
array with the pivot written at `L`. -/
theorem partLoopF_spec :
    ∀ fuel (arr : List ℤ) (piv : ℤ) (L R : ℕ),
      R - L + 1 ≤ fuel → L ≤ R → R < arr.length →
      L ≤ (partLoopF fuel arr piv L R).2 ∧
      (partLoopF fuel arr piv L R).2 ≤ R ∧
      (partLoopF fuel arr piv L R).1.length = arr.length ∧
      (∀ i, i < L → geti (partLoopF fuel arr piv L R).1 i = geti arr i) ∧
      (∀ i, R < i → geti (partLoopF fuel arr piv L R).1 i = geti arr i) ∧
      geti (partLoopF fuel arr piv L R).1 (partLoopF fuel arr piv L R).2 = piv ∧
      (∀ i, L ≤ i → i < (partLoopF fuel arr piv L R).2 →
        geti (partLoopF fuel arr piv L R).1 i ≤ piv) ∧
      (∀ i, (partLoopF fuel arr piv L R).2 < i → i ≤ R →
        piv ≤ geti (partLoopF fuel arr piv L R).1 i) ∧
      (partLoopF fuel arr piv L R).1.Perm (arr.set L piv) := by
  intro fuel
  induction fuel with
  | zero => intro arr piv L R hf; omega
  | succ fuel ih =>
    intro arr piv L R hf hLR hR
    by_cases h : L < R
    · rw [partLoopF, if_pos h]
      simp only
      have hR1le : scanDown arr piv L R ≤ R := scanDown_le arr piv L R
      have hR1ge : L ≤ scanDown arr piv L R := scanDown_ge arr piv L R (by omega)
      have hAbove : ∀ i, scanDown arr piv L R < i → i ≤ R → piv ≤ geti arr i :=
        scanDown_above arr piv L R
      by_cases h2 : L < scanDown arr piv L R
      · rw [if_pos h2]
        have hStopD : geti arr (scanDown arr piv L R) < piv :=
          scanDown_stop arr piv L R h2
        have hL1ge : L + 1 ≤
            scanUp (arr.set L (geti arr (scanDown arr piv L R))) piv (L + 1)
              (scanDown arr piv L R) :=
          scanUp_ge _ piv (L + 1) (scanDown arr piv L R)
        have hL1le :
            scanUp (arr.set L (geti arr (scanDown arr piv L R))) piv (L + 1)
              (scanDown arr piv L R) ≤ scanDown arr piv L R :=
          scanUp_le _ piv (L + 1) (scanDown arr piv L R) (by omega)
        have hBelow : ∀ i, L + 1 ≤ i →
            i < scanUp (arr.set L (geti arr (scanDown arr piv L R))) piv (L + 1)
              (scanDown arr piv L R) →
            geti (arr.set L (geti arr (scanDown arr piv L R))) i ≤ piv :=
          scanUp_below _ piv (L + 1) (scanDown arr piv L R)
        set R1 := scanDown arr piv L R with hR1def
        set arr1 := arr.set L (geti arr R1) with harr1def
        set L1 := scanUp arr1 piv (L + 1) R1 with hL1def
        have harr1len : arr1.length = arr.length := by
          rw [harr1def]; simp
        have harr1L : geti arr1 L = geti arr R1 := by
          rw [harr1def]; exact geti_set_self arr L _ (by omega)
        have harr1ne : ∀ i, i ≠ L → geti arr1 i = geti arr i := by
          intro i hi
          rw [harr1def]; exact geti_set_ne arr L i _ (Ne.symm hi)
        by_cases h3 : L1 < R1
        · rw [if_pos h3]
          have hStopU : piv < geti arr1 L1 := scanUp_stop arr1 piv (L + 1) R1 h3
          set arr2 := arr1.set R1 (geti arr1 L1) with harr2def
          have harr2len : arr2.length = arr.length := by
            rw [harr2def]; simp [harr1len]
          have harr2R1 : geti arr2 R1 = geti arr1 L1 := by
            rw [harr2def]; exact geti_set_self arr1 R1 _ (by omega)
          have harr2ne : ∀ i, i ≠ R1 → geti arr2 i = geti arr1 i := by
            intro i hi
            rw [harr2def]; exact geti_set_ne arr1 R1 i _ (Ne.symm hi)
          obtain ⟨ih1, ih2, ih3, ih4, ih5, ih6, ih7, ih8, ih9⟩ :=
            ih arr2 piv L1 (R1 - 1) (by omega) (by omega) (by omega)
          refine ⟨by omega, by omega, by omega, ?_, ?_, ih6, ?_, ?_, ?_⟩
          · intro i hi
            rw [ih4 i (by omega), harr2ne i (by omega), harr1ne i (by omega)]
          · intro i hi
            rw [ih5 i (by omega), harr2ne i (by omega), harr1ne i (by omega)]
          · intro i hi1 hi2
            rcases Nat.lt_or_ge i (L + 1) with hc | hc
            · have hiL : i = L := by omega
              subst hiL
              rw [ih4 i (by omega), harr2ne i (by omega), harr1L]
              omega
            · rcases Nat.lt_or_ge i L1 with hc2 | hc2
              · rw [ih4 i (by omega), harr2ne i (by omega)]
                exact hBelow i hc hc2
              · exact ih7 i hc2 hi2
          · intro i hi1 hi2
            rcases Nat.lt_or_ge i R1 with hc | hc
            · exact ih8 i hi1 (by omega)
            · rcases Nat.eq_or_lt_of_le hc with hc2 | hc2
              · rw [ih5 i (by omega), ← hc2, harr2R1]
                omega
              · rw [ih5 i (by omega), harr2ne i (by omega), harr1ne i (by omega)]
                exact hAbove i hc2 hi2
          · refine ih9.trans ?_
            have hgetL1 : geti arr1 L1 = geti arr L1 := harr1ne L1 (by omega)
            rw [harr2def, harr1def, hgetL1]
            exact set_rot3_perm arr L R1 L1 piv (by omega) (by omega) (by omega)
              (by omega) (by omega) (by omega)
        · rw [if_neg h3]
          have hL1eq : L1 = R1 := by omega
          obtain ⟨ih1, ih2, ih3, ih4, ih5, ih6, ih7, ih8, ih9⟩ :=
            ih arr1 piv L1 R1 (by omega) (by omega) (by omega)
          refine ⟨by omega, by omega, by omega, ?_, ?_, ih6, ?_, ?_, ?_⟩
          · intro i hi
            rw [ih4 i (by omega), harr1ne i (by omega)]
          · intro i hi
            rw [ih5 i (by omega), harr1ne i (by omega)]
          · intro i hi1 hi2
            rcases Nat.lt_or_ge i (L + 1) with hc | hc
            · have hiL : i = L := by omega
              subst hiL
              rw [ih4 i (by omega), harr1L]
              omega
            · rcases Nat.lt_or_ge i L1 with hc2 | hc2
              · rw [ih4 i (by omega)]
                exact hBelow i hc hc2
              · exact ih7 i hc2 (by omega)
          · intro i hi1 hi2
            rcases Nat.lt_or_ge i (R1 + 1) with hc | hc
            · exact ih8 i hi1 (by omega)
            · rw [ih5 i (by omega), harr1ne i (by omega)]
              exact hAbove i (by omega) hi2
          · refine ih9.trans ?_
            rw [harr1def, hL1eq]
            exact set_rot2_perm arr L R1 piv (by omega) (by omega) (by omega)
      · rw [if_neg h2]
        have hLeq : L = scanDown arr piv L R := by omega
        set R1 := scanDown arr piv L R with hR1def
        obtain ⟨ih1, ih2, ih3, ih4, ih5, ih6, ih7, ih8, ih9⟩ :=
          ih arr piv L R1 (by omega) (by omega) (by omega)
        refine ⟨ih1, by omega, ih3, ih4, ?_, ih6, ih7, ?_, ih9⟩
        · intro i hi
          exact ih5 i (by omega)
        · intro i hi1 hi2
          rcases Nat.lt_or_ge R1 i with hc | hc
          · rw [ih5 i (by omega)]
            exact hAbove i hc hi2
          · exact ih8 i hi1 (by omega)
    · rw [partLoopF, if_neg h]
      have hLeR : L = R := by omega
      refine ⟨le_rfl, by omega, by simp, ?_, ?_, ?_, ?_, ?_, ?_⟩
      · intro i hi
        exact geti_set_ne arr L i piv (by omega)
      · intro i hi
        exact geti_set_ne arr L i piv (by omega)
      · exact geti_set_self arr L piv (by omega)
      · intro i hi1 hi2
        simp only at hi2
        omega
      · intro i hi1 hi2
        simp only at hi1
        omega
      · exact List.Perm.refl _


theorem set_geti_self (l : List ℤ) : ∀ i : ℕ, i < l.length →
    l.set i (geti l i) = l := by
  induction l with
  | nil => intro i h; simp at h
  | cons x xs ih =>
    intro i h
    cases i with
    | zero => simp [geti]
    | succ i =>
      have h2 := ih i (by simpa using h)
      simp only [List.set_cons_succ]
      rw [show geti (x :: xs) (i + 1) = geti xs i from rfl, h2]

theorem pairwise_swap_head {α : Type} {R : α → α → Prop}
    (hsym : ∀ a b, R a b → R b a) (s t : α) (r : List α)
    (h : (s :: t :: r).Pairwise R) : (t :: s :: r).Pairwise R := by
  simp only [List.pairwise_cons] at h ⊢
  obtain ⟨h1, h2, h3⟩ := h
  refine ⟨?_, ?_, h3⟩
  · intro a ha
    rcases List.mem_cons.mp ha with ha1 | ha2
    · rw [ha1]
      exact hsym _ _ (h1 t (by simp))
    · exact h2 a ha2
  · intro a ha
    exact h1 a (by simp [ha])

/-- The partition pass never raises the values of the segment above a
bound that dominates the segment and the pivot. -/
theorem partLoopF_bound_le :
    ∀ fuel (arr : List ℤ) (piv : ℤ) (L R : ℕ), R - L + 1 ≤ fuel → L ≤ R →
      R < arr.length →
      ∀ v : ℤ, piv ≤ v → (∀ i, L ≤ i → i ≤ R → geti arr i ≤ v) →
      ∀ i, L ≤ i → i ≤ R → geti (partLoopF fuel arr piv L R).1 i ≤ v := by
  intro fuel
  induction fuel with
  | zero => intro arr piv L R hf; omega
  | succ fuel ih =>
    intro arr piv L R hf hLR hR v hpv hbnd i hi1 hi2
    by_cases h : L < R
    · rw [partLoopF, if_pos h]
      simp only
      have hR1le := scanDown_le arr piv L R
      have hR1ge := scanDown_ge arr piv L R (le_of_lt h)
      by_cases h2 : L < scanDown arr piv L R
      · rw [if_pos h2]
        set R1 := scanDown arr piv L R with hR1def
        set arr1 := arr.set L (geti arr R1) with harr1def
        set L1 := scanUp arr1 piv (L + 1) R1 with hL1def
        have hL1ge : L + 1 ≤ L1 := scanUp_ge arr1 piv (L + 1) R1
        have hL1le : L1 ≤ R1 := scanUp_le arr1 piv (L + 1) R1 (by omega)
        have harr1len : arr1.length = arr.length := by rw [harr1def]; simp
        have harr1bnd : ∀ i2, L ≤ i2 → i2 ≤ R → geti arr1 i2 ≤ v := by
          intro i2 hA hB
          by_cases hiL : i2 = L
          · rw [harr1def, hiL, geti_set_self arr L (geti arr R1) (by omega)]
            exact hbnd R1 (by omega) (by omega)
          · rw [harr1def, geti_set_ne arr L i2 _ (fun hx => hiL hx.symm)]
            exact hbnd i2 hA hB
        by_cases h3 : L1 < R1
        · rw [if_pos h3]
          set arr2 := arr1.set R1 (geti arr1 L1) with harr2def
          have harr2len : arr2.length = arr.length := by
            rw [harr2def]; simp [harr1len]
          have harr2bnd : ∀ i2, L ≤ i2 → i2 ≤ R → geti arr2 i2 ≤ v := by
            intro i2 hA hB
            by_cases hiR : i2 = R1
            · rw [harr2def, hiR, geti_set_self arr1 R1 (geti arr1 L1) (by omega)]
              exact harr1bnd L1 (by omega) (by omega)
            · rw [harr2def, geti_set_ne arr1 R1 i2 _ (fun hx => hiR hx.symm)]
              exact harr1bnd i2 hA hB
          obtain ⟨s1, s2, s3, s4, s5, s6, s7, s8, s9⟩ :=
            partLoopF_spec fuel arr2 piv L1 (R1 - 1) (by omega) (by omega)
              (by omega)
          by_cases hc : i < L1
          · rw [s4 i hc]; exact harr2bnd i hi1 hi2
          · by_cases hc2 : R1 - 1 < i
            · rw [s5 i hc2]; exact harr2bnd i hi1 hi2
            · exact ih arr2 piv L1 (R1 - 1) (by omega) (by omega) (by omega)
                v hpv (fun i2 hA hB => harr2bnd i2 (by omega) (by omega))
                i (by omega) (by omega)
        · rw [if_neg h3]
          obtain ⟨s1, s2, s3, s4, s5, s6, s7, s8, s9⟩ :=
            partLoopF_spec fuel arr1 piv L1 R1 (by omega) (by omega) (by omega)
          by_cases hc : i < L1
          · rw [s4 i hc]; exact harr1bnd i hi1 hi2
          · by_cases hc2 : R1 < i
            · rw [s5 i hc2]; exact harr1bnd i hi1 hi2
            · exact ih arr1 piv L1 R1 (by omega) (by omega) (by omega)
                v hpv (fun i2 hA hB => harr1bnd i2 (by omega) (by omega))
                i (by omega) (by omega)
      · rw [if_neg h2]
        set R1 := scanDown arr piv L R with hR1def
        obtain ⟨s1, s2, s3, s4, s5, s6, s7, s8, s9⟩ :=
          partLoopF_spec fuel arr piv L R1 (by omega) (by omega) (by omega)
        by_cases hc2 : R1 < i
        · rw [s5 i hc2]; exact hbnd i hi1 hi2
        · exact ih arr piv L R1 (by omega) (by omega) (by omega) v hpv
            (fun i2 hA hB => hbnd i2 hA (by omega)) i hi1 (by omega)
    · rw [partLoopF, if_neg h]
      have hiL : i = L := by omega
      subst hiL
      show geti (arr.set i piv) i ≤ v
      rw [geti_set_self arr i piv (by omega)]
      exact hpv

/-- Dual of `partLoopF_bound_le`: values stay above a lower bound that is
below the segment and the pivot. -/
theorem partLoopF_bound_ge :
    ∀ fuel (arr : List ℤ) (piv : ℤ) (L R : ℕ), R - L + 1 ≤ fuel → L ≤ R →
      R < arr.length →
      ∀ v : ℤ, v ≤ piv → (∀ i, L ≤ i → i ≤ R → v ≤ geti arr i) →
      ∀ i, L ≤ i → i ≤ R → v ≤ geti (partLoopF fuel arr piv L R).1 i := by
  intro fuel
  induction fuel with
  | zero => intro arr piv L R hf; omega
  | succ fuel ih =>
    intro arr piv L R hf hLR hR v hpv hbnd i hi1 hi2
    by_cases h : L < R
    · rw [partLoopF, if_pos h]
      simp only
      have hR1le := scanDown_le arr piv L R
      have hR1ge := scanDown_ge arr piv L R (le_of_lt h)
      by_cases h2 : L < scanDown arr piv L R
      · rw [if_pos h2]
        set R1 := scanDown arr piv L R with hR1def
        set arr1 := arr.set L (geti arr R1) with harr1def
        set L1 := scanUp arr1 piv (L + 1) R1 with hL1def
        have hL1ge : L + 1 ≤ L1 := scanUp_ge arr1 piv (L + 1) R1
        have hL1le : L1 ≤ R1 := scanUp_le arr1 piv (L + 1) R1 (by omega)
        have harr1len : arr1.length = arr.length := by rw [harr1def]; simp
        have harr1bnd : ∀ i2, L ≤ i2 → i2 ≤ R → v ≤ geti arr1 i2 := by
          intro i2 hA hB
          by_cases hiL : i2 = L
          · rw [harr1def, hiL, geti_set_self arr L (geti arr R1) (by omega)]
            exact hbnd R1 (by omega) (by omega)
          · rw [harr1def, geti_set_ne arr L i2 _ (fun hx => hiL hx.symm)]
            exact hbnd i2 hA hB
        by_cases h3 : L1 < R1
        · rw [if_pos h3]
          set arr2 := arr1.set R1 (geti arr1 L1) with harr2def
          have harr2len : arr2.length = arr.length := by
            rw [harr2def]; simp [harr1len]
          have harr2bnd : ∀ i2, L ≤ i2 → i2 ≤ R → v ≤ geti arr2 i2 := by
            intro i2 hA hB
            by_cases hiR : i2 = R1
            · rw [harr2def, hiR, geti_set_self arr1 R1 (geti arr1 L1) (by omega)]
              exact harr1bnd L1 (by omega) (by omega)
            · rw [harr2def, geti_set_ne arr1 R1 i2 _ (fun hx => hiR hx.symm)]
              exact harr1bnd i2 hA hB
          obtain ⟨s1, s2, s3, s4, s5, s6, s7, s8, s9⟩ :=
            partLoopF_spec fuel arr2 piv L1 (R1 - 1) (by omega) (by omega)
              (by omega)
          by_cases hc : i < L1
          · rw [s4 i hc]; exact harr2bnd i hi1 hi2
          · by_cases hc2 : R1 - 1 < i
            · rw [s5 i hc2]; exact harr2bnd i hi1 hi2
            · exact ih arr2 piv L1 (R1 - 1) (by omega) (by omega) (by omega)
                v hpv (fun i2 hA hB => harr2bnd i2 (by omega) (by omega))
                i (by omega) (by omega)
        · rw [if_neg h3]
          obtain ⟨s1, s2, s3, s4, s5, s6, s7, s8, s9⟩ :=
            partLoopF_spec fuel arr1 piv L1 R1 (by omega) (by omega) (by omega)
          by_cases hc : i < L1
          · rw [s4 i hc]; exact harr1bnd i hi1 hi2
          · by_cases hc2 : R1 < i
            · rw [s5 i hc2]; exact harr1bnd i hi1 hi2
            · exact ih arr1 piv L1 R1 (by omega) (by omega) (by omega)
                v hpv (fun i2 hA hB => harr1bnd i2 (by omega) (by omega))
                i (by omega) (by omega)
      · rw [if_neg h2]
        set R1 := scanDown arr piv L R with hR1def
        obtain ⟨s1, s2, s3, s4, s5, s6, s7, s8, s9⟩ :=
          partLoopF_spec fuel arr piv L R1 (by omega) (by omega) (by omega)
        by_cases hc2 : R1 < i
        · rw [s5 i hc2]; exact hbnd i hi1 hi2
        · exact ih arr piv L R1 (by omega) (by omega) (by omega) v hpv
            (fun i2 hA hB => hbnd i2 hA (by omega)) i hi1 (by omega)
    · rw [partLoopF, if_neg h]
      have hiL : i = L := by omega
      subst hiL
      show v ≤ geti (arr.set i piv) i
      rw [geti_set_self arr i piv (by omega)]
      exact hpv

theorem partLoop_spec (arr : List ℤ) (piv : ℤ) (L R : ℕ)
    (hLR : L ≤ R) (hR : R < arr.length) :
    L ≤ (partLoop arr piv L R).2 ∧
    (partLoop arr piv L R).2 ≤ R ∧
    (partLoop arr piv L R).1.length = arr.length ∧
    (∀ i, i < L → geti (partLoop arr piv L R).1 i = geti arr i) ∧
    (∀ i, R < i → geti (partLoop arr piv L R).1 i = geti arr i) ∧
    geti (partLoop arr piv L R).1 (partLoop arr piv L R).2 = piv ∧
    (∀ i, L ≤ i → i < (partLoop arr piv L R).2 →
      geti (partLoop arr piv L R).1 i ≤ piv) ∧
    (∀ i, (partLoop arr piv L R).2 < i → i ≤ R →
      piv ≤ geti (partLoop arr piv L R).1 i) ∧
    (partLoop arr piv L R).1.Perm (arr.set L piv) :=
  partLoopF_spec (R - L + 1) arr piv L R le_rfl hLR hR

theorem partLoop_bound_le (arr : List ℤ) (piv : ℤ) (L R : ℕ)
    (hLR : L ≤ R) (hR : R < arr.length) (v : ℤ) (hpv : piv ≤ v)
    (hbnd : ∀ i, L ≤ i → i ≤ R → geti arr i ≤ v) :
    ∀ i, L ≤ i → i ≤ R → geti (partLoop arr piv L R).1 i ≤ v :=
  partLoopF_bound_le (R - L + 1) arr piv L R le_rfl hLR hR v hpv hbnd

theorem partLoop_bound_ge (arr : List ℤ) (piv : ℤ) (L R : ℕ)
    (hLR : L ≤ R) (hR : R < arr.length) (v : ℤ) (hpv : v ≤ piv)
    (hbnd : ∀ i, L ≤ i → i ≤ R → v ≤ geti arr i) :
    ∀ i, L ≤ i → i ≤ R → v ≤ geti (partLoop arr piv L R).1 i :=
  partLoopF_bound_ge (R - L + 1) arr piv L R le_rfl hLR hR v hpv hbnd

theorem sorted_of_outSorted (arr : List ℤ) (h : OutSorted arr []) :
    arr.Sorted (· ≤ ·) := by
  apply List.pairwise_iff_get.mpr
  intro i j hij
  have h2 := h i j hij j.isLt (by simp)
  simp only [geti, List.getD_eq_getElem arr 0 i.isLt,
    List.getD_eq_getElem arr 0 j.isLt] at h2
  simpa [List.get_eq_getElem] using h2

/-- Main loop invariant argument: with adequate fuel and a well-formed,
disjoint stack whose complement is already ordered, `qsortLoop` returns a
sorted permutation of the array. -/
theorem qsortLoop_spec :
    ∀ fuel (arr : List ℤ) (segs : List (ℕ × ℕ)),
      segMeasure segs ≤ fuel → SegsOK arr segs → SegsDisj segs →
      OutSorted arr segs →
      (qsortLoop fuel arr segs).Perm arr ∧
      (qsortLoop fuel arr segs).Sorted (· ≤ ·) := by
  intro fuel
  induction fuel with
  | zero =>
    intro arr segs hm hOK hD hOS
    cases segs with
    | nil => exact ⟨List.Perm.refl _, sorted_of_outSorted arr hOS⟩
    | cons s r =>
      exfalso
      simp only [segMeasure, List.map_cons, List.sum_cons] at hm
      omega
  | succ fuel ih =>
    intro arr segs hm hOK hD hOS
    cases segs with
    | nil => exact ⟨List.Perm.refl _, sorted_of_outSorted arr hOS⟩
    | cons s rest =>
      obtain ⟨b, e⟩ := s
      by_cases hbe : b + 1 < e
      · rw [qsortLoop, if_pos hbe]
        simp only
        have hOKh := hOK (b, e) (by simp)
        simp only at hOKh
        have hlen : e - 1 < arr.length := by omega
        obtain ⟨p1, p2, p3, p4, p5, p6, p7, p8, p9⟩ :=
          partLoop_spec arr (geti arr b) b (e - 1) (by omega) hlen
        have pbndle := partLoop_bound_le arr (geti arr b) b (e - 1)
          (by omega) hlen
        have pbndge := partLoop_bound_ge arr (geti arr b) b (e - 1)
          (by omega) hlen
        set piv := geti arr b with hpivdef
        set pr := partLoop arr piv b (e - 1) with hprdef
        have hpermarr : pr.1.Perm arr := by
          have h9 := p9
          rw [hpivdef, set_geti_self arr b (by omega)] at h9
          exact h9
        have hsep : ∀ t ∈ rest, t.2 ≤ b ∨ e ≤ t.1 := by
          have hD2 := List.pairwise_cons.mp hD
          intro t ht
          rcases hD2.1 t ht with hx | hx
          · right; exact hx
          · left; exact hx
        have hOKr : ∀ t ∈ rest, t.1 ≤ t.2 ∧ t.2 ≤ arr.length :=
          fun t ht => hOK t (by simp [ht])
        have hMain : ∀ s1 s2 : ℕ × ℕ,
            (s1 = (b, pr.2) ∧ s2 = (pr.2 + 1, e)) ∨
              (s1 = (pr.2 + 1, e) ∧ s2 = (b, pr.2)) →
            segMeasure (s1 :: s2 :: rest) ≤ fuel ∧
            SegsOK pr.1 (s1 :: s2 :: rest) ∧
            SegsDisj (s1 :: s2 :: rest) ∧
            OutSorted pr.1 (s1 :: s2 :: rest) := by
          intro s1 s2 hset
          have hmm : ∀ t : ℕ × ℕ, t ∈ s1 :: s2 :: rest ↔
              (t = (b, pr.2) ∨ t = (pr.2 + 1, e) ∨ t ∈ rest) := by
            rcases hset with ⟨hs1, hs2⟩ | ⟨hs1, hs2⟩ <;>
              (rw [hs1, hs2]; simp; try tauto)
          refine ⟨?_, ?_, ?_, ?_⟩
          · rcases hset with ⟨hs1, hs2⟩ | ⟨hs1, hs2⟩ <;> rw [hs1, hs2] <;>
              simp only [segMeasure, List.map_cons, List.sum_cons] at hm ⊢ <;>
              omega
          · intro t ht
            rcases (hmm t).mp ht with rfl | rfl | ht2
            · exact ⟨by omega, by omega⟩
            · exact ⟨by omega, by omega⟩
            · have := hOKr t ht2
              exact ⟨this.1, by omega⟩
          · have hDcanon : SegsDisj ((b, pr.2) :: (pr.2 + 1, e) :: rest) := by
              apply List.pairwise_cons.mpr
              refine ⟨?_, ?_⟩
              · intro t ht
                rcases List.mem_cons.mp ht with ht1 | ht2
                · rw [ht1]; left; simp
                · rcases hsep t ht2 with hc | hc
                  · right; show t.2 ≤ b; omega
                  · left; show pr.2 ≤ t.1; omega
              · apply List.pairwise_cons.mpr
                refine ⟨?_, (List.pairwise_cons.mp hD).2⟩
                intro t ht
                rcases hsep t ht with hc | hc
                · right; show t.2 ≤ pr.2 + 1; omega
                · left; show e ≤ t.1; omega
            rcases hset with ⟨hs1, hs2⟩ | ⟨hs1, hs2⟩
            · rw [hs1, hs2]; exact hDcanon
            · rw [hs1, hs2]
              apply pairwise_swap_head (fun a b h => h.symm.imp id id) _ _ _
                hDcanon
          · intro i j hij hjl hnot
            replace hjl : j < arr.length := by rwa [p3] at hjl
            have hnot1 : ¬((b : ℕ) ≤ i ∧ j < pr.2) := by
              have := hnot (b, pr.2) ((hmm _).mpr (Or.inl rfl))
              simpa using this
            have hnot2 : ¬(pr.2 + 1 ≤ i ∧ j < e) := by
              have := hnot (pr.2 + 1, e) ((hmm _).mpr (Or.inr (Or.inl rfl)))
              simpa using this
            have hnotr : ∀ t ∈ rest, ¬(t.1 ≤ i ∧ j < t.2) :=
              fun t ht => hnot t ((hmm _).mpr (Or.inr (Or.inr ht)))
            by_cases hin_i : b ≤ i ∧ i < e
            · by_cases hin_j : b ≤ j ∧ j < e
              · have hip : i ≤ pr.2 := by omega
                have hjp : pr.2 ≤ j := by omega
                rcases Nat.lt_or_ge i pr.2 with hc | hc
                · have h1 : geti pr.1 i ≤ piv := p7 i (by omega) hc
                  rcases Nat.eq_or_lt_of_le hjp with hc2 | hc2
                  · rw [← hc2, p6]; exact h1
                  · exact h1.trans (p8 j hc2 (by omega))
                · have hieq : i = pr.2 := by omega
                  have h1 : geti pr.1 i = piv := by rw [hieq, p6]
                  rw [h1]
                  exact p8 j (by omega) (by omega)
              · have hje : e ≤ j := by omega
                have harrj : geti pr.1 j = geti arr j := p5 j (by omega)
                have hall : ∀ i2, b ≤ i2 → i2 ≤ e - 1 →
                    geti arr i2 ≤ geti arr j := by
                  intro i2 hA hB
                  apply hOS i2 j (by omega) hjl
                  intro t ht
                  rcases List.mem_cons.mp ht with ht1 | ht2
                  · rw [ht1]; simp only; omega
                  · intro hcon
                    rcases hsep t ht2 with hc | hc <;> omega
                have hpivle : piv ≤ geti arr j := by
                  rw [hpivdef]; exact hall b le_rfl (by omega)
                rw [harrj]
                exact pbndle (geti arr j) hpivle hall i (by omega) (by omega)
            · by_cases hin_j : b ≤ j ∧ j < e
              · have hib : i < b := by omega
                have harri : geti pr.1 i = geti arr i := p4 i hib
                have hall : ∀ j2, b ≤ j2 → j2 ≤ e - 1 →
                    geti arr i ≤ geti arr j2 := by
                  intro j2 hA hB
                  apply hOS i j2 (by omega) (by omega)
                  intro t ht
                  rcases List.mem_cons.mp ht with ht1 | ht2
                  · rw [ht1]; simp only; omega
                  · intro hcon
                    rcases hsep t ht2 with hc | hc <;> omega
                have hpivge : geti arr i ≤ piv := by
                  rw [hpivdef]; exact hall b le_rfl (by omega)
                rw [harri]
                exact pbndge (geti arr i) hpivge hall j (by omega) (by omega)
              · have harri : geti pr.1 i = geti arr i := by
                  rcases Nat.lt_or_ge i b with hc | hc
                  · exact p4 i hc
                  · exact p5 i (by omega)
                have harrj : geti pr.1 j = geti arr j := by
                  rcases Nat.lt_or_ge j b with hc | hc
                  · exact p4 j hc
                  · exact p5 j (by omega)
                rw [harri, harrj]
                apply hOS i j hij hjl
                intro t ht
                rcases List.mem_cons.mp ht with ht1 | ht2
                · rw [ht1]; simp only; omega
                · exact hnotr t ht2
        split
        · obtain ⟨hm2, hOK2, hD2, hOS2⟩ := hMain _ _ (Or.inl ⟨rfl, rfl⟩)
          obtain ⟨ihp, ihs⟩ := ih pr.1 _ hm2 hOK2 hD2 hOS2
          exact ⟨ihp.trans hpermarr, ihs⟩
        · obtain ⟨hm2, hOK2, hD2, hOS2⟩ := hMain _ _ (Or.inr ⟨rfl, rfl⟩)
          obtain ⟨ihp, ihs⟩ := ih pr.1 _ hm2 hOK2 hD2 hOS2
          exact ⟨ihp.trans hpermarr, ihs⟩
      · rw [qsortLoop, if_neg hbe]
        apply ih arr rest
        · simp only [segMeasure, List.map_cons, List.sum_cons] at hm ⊢
          omega
        · exact fun t ht => hOK t (by simp [ht])
        · exact (List.pairwise_cons.mp hD).2
        · intro i j hij hjl hnot
          apply hOS i j hij hjl
          intro t ht
          rcases List.mem_cons.mp ht with ht1 | ht2
          · rw [ht1]; simp only; omega
          · exact hnot t ht2

theorem quicksort_perm (l : List ℤ) : (quicksort l).Perm l := by
  apply (qsortLoop_spec (2 * l.length + 2) l [(0, l.length)] ?_ ?_ ?_ ?_).1
  · simp [segMeasure]
  · intro s hs
    simp at hs
    rw [hs]
    exact ⟨Nat.zero_le _, le_rfl⟩
  · simp [SegsDisj]
  · intro i j hij hjl hnot
    have h2 := hnot (0, l.length) (by simp)
    simp only [not_and, not_lt] at h2
    exact absurd hjl (by have := h2 (Nat.zero_le i); omega)

theorem quicksort_sorted (l : List ℤ) : (quicksort l).Sorted (· ≤ ·) := by
  apply (qsortLoop_spec (2 * l.length + 2) l [(0, l.length)] ?_ ?_ ?_ ?_).2
  · simp [segMeasure]
  · intro s hs
    simp at hs
    rw [hs]
    exact ⟨Nat.zero_le _, le_rfl⟩
  · simp [SegsDisj]
  · intro i j hij hjl hnot
    have h2 := hnot (0, l.length) (by simp)
    simp only [not_and, not_lt] at h2
    exact absurd hjl (by have := h2 (Nat.zero_le i); omega)

/-- On an input without duplicates (as produced by `set_add`), `quicksort`
returns a strictly increasing list. -/
theorem quicksort_strict (l : List ℤ) (h : l.Nodup) :
    (quicksort l).Pairwise (· < ·) := by
  have hs := quicksort_sorted l
  have hn : (quicksort l).Nodup := (quicksort_perm l).nodup_iff.mpr h
  have := List.Pairwise.and hs hn
  exact this.imp fun hab => lt_of_le_of_ne hab.1 hab.2

theorem set_add_nodup (arr : List ℤ) (x : ℤ) (h : arr.Nodup) :
    (set_add arr x).Nodup := by
  unfold set_add
  split
  · exact h
  · next hx =>
    simp [List.nodup_append, h, hx]

theorem edgeStep_fold_nodup (rs : List Rect) :
    ∀ es : List ℤ × List ℤ, es.1.Nodup → es.2.Nodup →
      (rs.foldl edgeStep es).1.Nodup ∧ (rs.foldl edgeStep es).2.Nodup := by
  induction rs with
  | nil => intro es h1 h2; exact ⟨h1, h2⟩
  | cons r rs ih =>
    intro es h1 h2
    simp only [List.foldl_cons]
    exact ih _ (set_add_nodup _ _ (set_add_nodup _ _ h1))
      (set_add_nodup _ _ (set_add_nodup _ _ h2))

theorem mkDisjointEdges_strict (add rm : List Rect) :
    (mkDisjointEdges add rm).1.Pairwise (· < ·) ∧
    (mkDisjointEdges add rm).2.Pairwise (· < ·) := by
  have hnd := edgeStep_fold_nodup (add ++ rm) ([], [])
    List.nodup_nil List.nodup_nil
  unfold mkDisjointEdges
  exact ⟨quicksort_strict _ hnd.1, quicksort_strict _ hnd.2⟩

theorem strict_getD_lt (l : List ℤ) (h : l.Pairwise (· < ·)) (j : ℕ)
    (hj : j + 1 < l.length) : geti l j < geti l (j + 1) := by
  have h2 := List.pairwise_iff_get.mp h ⟨j, by omega⟩ ⟨j + 1, hj⟩
    (by simp [Fin.mk_lt_mk])
  simp only [geti, List.getD_eq_getElem l 0 (show j < l.length by omega),
    List.getD_eq_getElem l 0 hj]
  simpa [List.get_eq_getElem] using h2

theorem strict_getD_mono (l : List ℤ) (h : l.Pairwise (· < ·)) (a b : ℕ)
    (hab : a ≤ b) (hb : b < l.length) : geti l a ≤ geti l b := by
  rcases Nat.eq_or_lt_of_le hab with rfl | hlt
  · exact le_rfl
  · have h2 := List.pairwise_iff_get.mp h ⟨a, by omega⟩ ⟨b, hb⟩
      (by simpa [Fin.mk_lt_mk] using hlt)
    simp only [geti, List.getD_eq_getElem l 0 (show a < l.length by omega),
      List.getD_eq_getElem l 0 hb]
    simpa [List.get_eq_getElem] using le_of_lt h2

theorem cellAt_no_overlap_same_row (ex ey : List ℤ)
    (hx : ex.Pairwise (· < ·)) (i i' j j' : ℕ) (hjj : j < j')
    (hj' : j' + 1 < ex.length) :
    ¬ PosOverlap (cellAt ex ey i j) (cellAt ex ey i' j') := by
  intro hov
  obtain ⟨hovx, _⟩ := hov
  simp only [cellAt] at hovx
  have hm := strict_getD_mono ex hx (j + 1) j' (by omega) (by omega)
  omega

theorem cellAt_no_overlap_diff_row (ex ey : List ℤ)
    (hy : ey.Pairwise (· < ·)) (i i' j j' : ℕ) (hii : i < i')
    (hi' : i' + 1 < ey.length) :
    ¬ PosOverlap (cellAt ex ey i j) (cellAt ex ey i' j') := by
  intro hov
  obtain ⟨_, hovy⟩ := hov
  simp only [cellAt] at hovy
  have hm := strict_getD_mono ey hy (i + 1) i' (by omega) (by omega)
  omega

theorem emitGrid_mem (ex ey : List ℤ) (g : ℤ → ℕ) (r : Rect)
    (hr : r ∈ emitGrid ex ey g) :
    ∃ i j, i < ey.length - 1 ∧ j < ex.length - 1 ∧ r = cellAt ex ey i j := by
  unfold emitGrid at hr
  obtain ⟨i, hi, hr2⟩ := List.mem_flatMap.mp hr
  obtain ⟨j, hj, hr3⟩ := List.mem_filterMap.mp hr2
  refine ⟨i, j, List.mem_range.mp hi, List.mem_range.mp hj, ?_⟩
  split at hr3
  · exact (Option.some_inj.mp hr3).symm
  · exact absurd hr3 (Option.some_ne_none r).symm

theorem pairwise_flatMap_range {α : Type} (n : ℕ) (f : ℕ → List α)
    (R : α → α → Prop)
    (hin : ∀ i, i < n → (f i).Pairwise R)
    (hcross : ∀ i i', i < n → i' < n → i < i' →
      ∀ x ∈ f i, ∀ y ∈ f i', R x y) :
    ((List.range n).flatMap f).Pairwise R := by
  rw [List.flatMap, List.pairwise_flatten]
  constructor
  · intro l' hl'
    obtain ⟨i, hi, rfl⟩ := List.mem_map.mp hl'
    exact hin i (List.mem_range.mp hi)
  · apply List.pairwise_map.mpr
    apply List.Pairwise.imp_of_mem ?_ (List.pairwise_lt_range n)
    intro a b ha hb hab
    exact hcross a b (List.mem_range.mp ha) (List.mem_range.mp hb) hab

theorem pairwise_filterMap_range {α : Type} (n : ℕ) (f : ℕ → Option α)
    (R : α → α → Prop)
    (H : ∀ j j', j < n → j' < n → j < j' → ∀ x ∈ f j, ∀ y ∈ f j', R x y) :
    ((List.range n).filterMap f).Pairwise R := by
  have base : (List.range n).Pairwise fun a b => a < b ∧ a < n ∧ b < n :=
    List.Pairwise.imp_of_mem
      (fun ha hb hab =>
        ⟨hab, List.mem_range.mp ha, List.mem_range.mp hb⟩)
      (List.pairwise_lt_range n)
  exact List.Pairwise.filterMap f
    (fun a a' hR x hx y hy => H a a' hR.2.1 hR.2.2 hR.1 x hx y hy) base

theorem emitGrid_pairwise (ex ey : List ℤ) (g : ℤ → ℕ)
    (hx : ex.Pairwise (· < ·)) (hy : ey.Pairwise (· < ·)) :
    (emitGrid ex ey g).Pairwise fun a b => ¬ PosOverlap a b := by
  unfold emitGrid
  apply pairwise_flatMap_range
  · intro i hi
    apply pairwise_filterMap_range
    intro j j' hj hj' hjj x hxmem y hymem
    have hx2 : x = cellAt ex ey i j := by
      split at hxmem
      · simpa [eq_comm] using hxmem
      · simp at hxmem
    have hy2 : y = cellAt ex ey i j' := by
      split at hymem
      · simpa [eq_comm] using hymem
      · simp at hymem
    rw [hx2, hy2]
    exact cellAt_no_overlap_same_row ex ey hx i i j j' hjj (by omega)
  · intro i i' hi hi' hii x hxmem y hymem
    obtain ⟨j, hj, hxm2⟩ := List.mem_filterMap.mp hxmem
    obtain ⟨j', hj', hym2⟩ := List.mem_filterMap.mp hymem
    have hx2 : x = cellAt ex ey i j := by
      split at hxm2
      · simpa [eq_comm] using hxm2
      · simp at hxm2
    have hy2 : y = cellAt ex ey i' j' := by
      split at hym2
      · simpa [eq_comm] using hym2
      · simp at hym2
    rw [hx2, hy2]
    exact cellAt_no_overlap_diff_row ex ey hy i i' j j' hii (by omega)

/-- C2: every rectangle returned by `mk_disjoint` has strictly positive
width and strictly positive height, and no two returned rectangles overlap
with positive area, for every pair of input sequences. -/
theorem mk_disjoint_pos_disjoint (add rm : List Rect) :
    (∀ r ∈ mk_disjoint add rm, 0 < r.w ∧ 0 < r.h) ∧
    (mk_disjoint add rm).Pairwise fun a b => ¬ PosOverlap a b := by
  obtain ⟨hx, hy⟩ := mkDisjointEdges_strict add rm
  constructor
  · intro r hr
    unfold mk_disjoint at hr
    obtain ⟨i, j, hi, hj, rfl⟩ := emitGrid_mem _ _ _ r hr
    constructor
    · have := strict_getD_lt _ hx j (by omega)
      simp only [cellAt]
      omega
    · have := strict_getD_lt _ hy i (by omega)
      simp only [cellAt]
      omega
  · unfold mk_disjoint
    exact emitGrid_pairwise _ _ _ hx hy

/-- Witness for C2 at a concrete input. -/
theorem mk_disjoint_pos_disjoint_wit :
    0 < (Rect.mk 0 0 2 2).w ∧ 0 < (Rect.mk 0 0 2 2).h :=
  (mk_disjoint_pos_disjoint [Rect.mk 0 0 2 2] []).1 (Rect.mk 0 0 2 2)
    (by decide)

theorem foldl_pointwise {α : Type} (P : (ℤ → ℕ) → Prop)
    (f : (ℤ → ℕ) → α → ℤ → ℕ) (hf : ∀ g a, P g → P (f g a)) :
    ∀ (l : List α) (g : ℤ → ℕ), P g → P (l.foldl f g) := by
  intro l
  induction l with
  | nil => intro g hg; exact hg
  | cons a l ih => intro g hg; exact ih _ (hf g a hg)

theorem updG_false_le_one (g : ℤ → ℕ) (idx : ℤ) (h : ∀ j, g j ≤ 1) :
    ∀ j, updG g idx false j ≤ 1 := by
  intro j
  unfold updG
  split
  · rcases Nat.le_one_iff_eq_zero_or_eq_one.mp (h idx) with h0 | h0 <;>
      simp [h0]
  · exact h j

theorem markRect_false_le_one (ex ey : List ℤ) (r : Rect) (g : ℤ → ℕ)
    (h : ∀ j, g j ≤ 1) : ∀ j, markRect g ex ey false r j ≤ 1 := by
  unfold markRect
  split
  · simp only
    exact foldl_pointwise (fun g => ∀ j, g j ≤ 1) _
      (fun g2 k hg2 =>
        foldl_pointwise (fun g => ∀ j, g j ≤ 1) _
          (fun g3 l hg3 => updG_false_le_one g3 _ hg3) _ g2 hg2)
      _ g h
  · exact h

/-- C10: with an empty `add` list no grid cell ever carries the add bit, so
`mk_disjoint` returns the empty sequence whatever `remove` is. -/
theorem mk_disjoint_empty_add : ∀ rm : List Rect, mk_disjoint [] rm = [] := by
  intro rm
  unfold mk_disjoint
  simp only
  have hle : ∀ idx,
      markAll (mkDisjointEdges [] rm).1 (mkDisjointEdges [] rm).2 [] rm idx
        ≤ 1 := by
    unfold markAll
    simp only [List.foldl_nil]
    apply foldl_pointwise (fun g => ∀ j, g j ≤ 1) _ ?_ rm _ ?_
    · intro g r hg
      exact markRect_false_le_one _ _ r g hg
    · intro j
      unfold initGrid
      split <;> omega
  unfold emitGrid
  apply List.flatMap_eq_nil_iff.mpr
  intro i hi
  apply List.filterMap_eq_nil_iff.mpr
  intro j hj
  split
  · next hcond =>
    exfalso
    have h2 := hle (gridIdx (mkDisjointEdges [] rm).2.length (i : ℤ) (j : ℤ))
    omega
  · rfl

theorem foldl_markRect_filter (ex ey : List ℤ) (flag : Bool) (rs : List Rect) :
    ∀ g : ℤ → ℕ,
      (rs.filter fun r => decide (0 < r.w) && decide (0 < r.h)).foldl
          (fun g r => markRect g ex ey flag r) g
        = rs.foldl (fun g r => markRect g ex ey flag r) g := by
  induction rs with
  | nil => intro g; rfl
  | cons r rs ih =>
    intro g
    by_cases hpos : 0 < r.w ∧ 0 < r.h
    · rw [List.filter_cons_of_pos (by simpa using hpos)]
      simp only [List.foldl_cons]
      exact ih _
    · rw [List.filter_cons_of_neg (by simpa using hpos)]
      simp only [List.foldl_cons]
      rw [show markRect g ex ey flag r = g from by
        unfold markRect; rw [if_neg hpos]]
      exact ih g

/-- C7 (amended): the marking pass skips degenerate rectangles, so with the
edge arrays held fixed the marked grid is unchanged when degenerate
rectangles are deleted from `add` and `remove`; they are, however, not
skipped during edge collection, so the emitted output of `mk_disjoint` can
split differently (see the counterexample). -/
theorem markAll_filter_degenerate (ex ey : List ℤ) (add rm : List Rect) :
    markAll ex ey (add.filter fun r => decide (0 < r.w) && decide (0 < r.h))
        (rm.filter fun r => decide (0 < r.w) && decide (0 < r.h))
      = markAll ex ey add rm := by
  unfold markAll
  rw [foldl_markRect_filter ex ey false, foldl_markRect_filter ex ey true]

/-- C7 counterexample: a degenerate rectangle in `add` contributes an x
edge, so the output sequence differs from the output with the degenerate
rectangle deleted (the coverage here is the same but the splitting is
not). -/
theorem mk_disjoint_degenerate_edges :
    mk_disjoint [⟨0, 0, 2, 1⟩, ⟨1, 0, 0, 0⟩] [] ≠
      mk_disjoint [⟨0, 0, 2, 1⟩] [] ∧
    mk_disjoint [⟨0, 0, 2, 1⟩, ⟨1, 0, 0, 0⟩] [] =
      [⟨0, 0, 1, 1⟩, ⟨1, 0, 1, 1⟩] ∧
    mk_disjoint [⟨0, 0, 2, 1⟩] [] = [⟨0, 0, 2, 1⟩] :=
  ⟨by decide, by decide, by decide⟩

/-- C1: the coverage law fails on the code.  With
`add = [(0,0,3,1), (1,1,1,1)]` and empty `remove`, the grid has 3 columns
and 2 rows but both passes use stride `n_edges[1] - 1 = 2`, aliasing cell
(row 1, col 0) with cell (row 0, col 2); the output covers the point
(0, 1) although no input rectangle does. -/
theorem mk_disjoint_coverage_bug :
    coveredBy (mk_disjoint [⟨0, 0, 3, 1⟩, ⟨1, 1, 1, 1⟩] []) (0, 1) = true ∧
    coveredBy [⟨0, 0, 3, 1⟩, ⟨1, 1, 1, 1⟩] (0, 1) = false :=
  ⟨by decide, by decide⟩

/-- C3: overlapping rectangles in `remove` do not collapse.  The XOR
toggle flips the remove bit back when a cell is covered twice, so
`mk_disjoint [r] [r, r]` returns `[r]` while `mk_disjoint [r] [r]` returns
the empty list. -/
theorem mk_disjoint_double_remove_bug :
    mk_disjoint [⟨0, 0, 1, 1⟩] [⟨0, 0, 1, 1⟩, ⟨0, 0, 1, 1⟩] =
      [⟨0, 0, 1, 1⟩] ∧
    mk_disjoint [⟨0, 0, 1, 1⟩] [⟨0, 0, 1, 1⟩] = [] :=
  ⟨by decide, by decide⟩

/-- C4: the marking pass writes grid index 6 on an input whose grid
allocation is `(n_edges[0] - 1) * (n_edges[1] - 1) = 3` cells (2 x-edges,
4 y-edges: more rows than columns), because the row stride is
`n_edges[1] - 1` while a row holds `n_edges[0] - 1` cells. -/
theorem mk_disjoint_grid_idx_bug :
    (6 : ℤ) ∈ mkDisjointMarkIdx [⟨0, 0, 1, 1⟩, ⟨0, 1, 1, 1⟩, ⟨0, 2, 1, 1⟩] [] ∧
    mkDisjointGridLen [⟨0, 0, 1, 1⟩, ⟨0, 1, 1, 1⟩, ⟨0, 2, 1, 1⟩] [] = 3 ∧
    ¬ ((6 : ℤ) <
      mkDisjointGridLen [⟨0, 0, 1, 1⟩, ⟨0, 1, 1, 1⟩, ⟨0, 2, 1, 1⟩] []) := by
  refine ⟨by decide, by decide, by decide⟩

theorem foldl_append_map {α : Type} (f : α → Rect) (l : List α) :
    ∀ d : List Rect, l.foldl (fun acc r => acc ++ [f r]) d = d ++ l.map f := by
  induction l with
  | nil => intro d; simp
  | cons a l ih => intro d; simp [ih]

theorem collectDirtyG_eq (d : List Rect) (g : Drawable) :
    collectDirtyG d g = d ++ collectG g := by
  unfold collectDirtyG collectG
  by_cases h1 : g.was_visible <;> by_cases h2 : g.visible <;>
    simp [h1, h2, foldl_append_map]

theorem collectLayer_eq (i : ℕ) (gs : List Drawable) :
    ∀ j (d : List Rect) tr,
      collectLayer i d tr j gs =
        (d ++ gs.flatMap collectG,
         gs.map fun g => { g with was_visible := g.visible },
         tr ++ wvLayerFrom i j gs) := by
  induction gs with
  | nil => intro j d tr; simp [collectLayer, wvLayerFrom]
  | cons g gs ih =>
    intro j d tr
    rw [collectLayer]
    simp only [ih (j + 1), collectDirtyG_eq]
    simp [wvLayerFrom]

theorem collectAll_eq (layers : List (List Drawable)) :
    ∀ i (d : List Rect) tr,
      collectAll d tr i layers =
        (d ++ layers.flatMap fun gs => gs.flatMap collectG,
         layers.map (List.map fun g => { g with was_visible := g.visible }),
         tr ++ wvWritesFrom i layers) := by
  induction layers with
  | nil => intro i d tr; simp [collectAll, wvWritesFrom]
  | cons gs ls ih =>
    intro i d tr
    rw [collectAll]
    simp only [collectLayer_eq, ih (i + 1)]
    simp [wvWritesFrom]

/-- C6 (amended): during dirty-rectangle collection every clip is appended
unconditionally — the global dirty list after collection is exactly the
caller's list followed by, for each drawable in layer order, the clip of
each of its dirty rectangles against `last_rect` when `was_visible` and
against `_rect` when `visible`, with no positive-area test. -/
theorem collect_appends_all_clips (layers : List (List Drawable))
    (d0 : List Rect) :
    (collectAll d0 [] 0 layers).1 =
      d0 ++ layers.flatMap fun gs => gs.flatMap fun g =>
        (if g.was_visible then g.dirty.map fun r => r.clip g.last_rect
          else []) ++
          (if g.visible then g.dirty.map fun r => r.clip g.rect else []) := by
  rw [collectAll_eq]
  rfl

/-- C6 counterexample: a visible drawable whose dirty rectangle does not
meet its bound appends a zero-area clip to the global dirty list,
contradicting "appended only if the clipped result has positive area". -/
theorem collect_appends_zero_area :
    (collectAll [] [] 0 [[cexZeroAreaG]]).1 = [⟨5, 5, 0, 0⟩] ∧
    ¬ (0 < (Rect.mk 5 5 0 0).w ∧ 0 < (Rect.mk 5 5 0 0).h) :=
  ⟨by decide, by decide⟩

theorem drawLayer_wasv (i : ℕ) (rs : List Rect) :
    ∀ j (gs : List Drawable),
      ((drawLayer i rs j gs).1).map (fun g => g.was_visible) =
        gs.map fun g => g.was_visible := by
  intro j gs
  induction gs generalizing j with
  | nil => simp [drawLayer]
  | cons g gs ih =>
    rw [drawLayer]
    simp [ih]

theorem drawAll_wasv (dbls : List (List Rect)) :
    ∀ (layers : List (List Drawable)) (i : ℕ),
      ((drawAll dbls i layers).1).map (List.map fun g => g.was_visible) =
        layers.map (List.map fun g => g.was_visible) := by
  intro layers
  induction layers with
  | nil => intro i; simp [drawAll]
  | cons gs ls ih =>
    intro i
    rw [drawAll]
    simp [ih, drawLayer_wasv]

theorem map_wasv_update (layers : List (List Drawable)) :
    (layers.map (List.map fun g =>
        ({ g with was_visible := g.visible } : Drawable))).map
      (List.map fun g => g.was_visible) =
      layers.map (List.map fun g => g.visible) := by
  simp [List.map_map, Function.comp]

/-- C8: after any `fastdraw` invocation every drawable's `was_visible`
equals the `visible` value read during that invocation, and the write
trace contains exactly one `was_visible` write per drawable, in iteration
order, holding that drawable's `visible` value — on the fast path and the
full path alike. -/
theorem fastdraw_was_visible_update (layers : List (List Drawable))
    (d0 : List Rect) :
    (fastdraw layers d0).layers.map (List.map fun g => g.was_visible) =
      layers.map (List.map fun g => g.visible) ∧
    (fastdraw layers d0).wasVisWrites = wvWritesFrom 0 layers := by
  unfold fastdraw
  rw [collectAll_eq]
  simp only
  split
  · exact ⟨map_wasv_update layers, by simp⟩
  · constructor
    · rw [drawAll_wasv]
      exact map_wasv_update layers
    · simp

/-- C9: when the global dirty list is empty after collection, `fastdraw`
returns the `Py_False` sentinel (modelled as `none`, distinct from the
empty rectangle list `some []`) and no drawable's `draw` is invoked. -/
theorem fastdraw_empty_dirty_sentinel (layers : List (List Drawable))
    (d0 : List Rect) (h : (collectAll d0 [] 0 layers).1 = []) :
    (fastdraw layers d0).result = none ∧
    (fastdraw layers d0).drawCalls = [] ∧
    (fastdraw layers d0).result ≠ some [] := by
  unfold fastdraw
  have hc : (collectAll d0 [] 0 layers).1.isEmpty = true := by
    rw [h]; rfl
  rw [if_pos hc]
  exact ⟨rfl, rfl, by simp⟩

/-- Witness for C9 at a concrete input. -/
theorem fastdraw_empty_dirty_sentinel_wit :
    (fastdraw [[witNoDirtyG]] []).result = none ∧
    (fastdraw [[witNoDirtyG]] []).drawCalls = [] ∧
    (fastdraw [[witNoDirtyG]] []).result ≠ some [] :=
  fastdraw_empty_dirty_sentinel [[witNoDirtyG]] [] (by decide)

/-- C5: an empty layer does append the whole dirty list to the running
opaque set (the chained test passes vacuously), but a layer below it does
not receive an empty `dirty_by_layer` list: the collection pass appended
the same clip twice, and the XOR toggle in `mk_disjoint` cancels the
doubled remove coverage, so the layer below the empty layer is handed a
non-empty list and its drawable is drawn. -/
theorem fastdraw_empty_layer_bug :
    layerOpq [] [⟨0, 0, 1, 1⟩, ⟨0, 0, 1, 1⟩] =
      [⟨0, 0, 1, 1⟩, ⟨0, 0, 1, 1⟩] ∧
    (fastdraw [[], [cexEmptyLayerG]] []).dirtyByLayer =
      [[⟨0, 0, 1, 1⟩], [⟨0, 0, 1, 1⟩]] ∧
    (fastdraw [[], [cexEmptyLayerG]] []).drawCalls =
      [(1, 0, [⟨0, 0, 1, 1⟩])] :=
  ⟨by decide, by decide, by decide⟩

end Gmdraw
